import Mathlib

/-!
Shallow embedding of the core of `src/tree_schema.c` (a YANG schema
processor): the feature runtime (`lys_feature_change`,
`lys_feature_enable`, `lys_feature_disable`, `lys_feature_value`,
`lysc_feature_value`, `lysc_iffeature_value`), the range/length
base-restriction check of `lys_compile_type_range`, the escape/wrap stage
of `lys_compile_type_pattern_check`, and the enum/bits item compiler
`lys_compile_type_enums`.

Modelling conventions:
- C sized arrays (`LY_ARRAY_*`) become Lean lists; a NULL array is the
  empty list.
- NULL pointers of API arguments become `Option`.
- Feature pointers stored in if-feature expressions and in `depfeatures`
  become indices (`Nat`) into the owning compiled module feature list
  (the single-module situation; the claims under study are all
  single-module).
- `int32_t` / `uint32_t` arithmetic is modelled on `Int` with explicit
  wrap-around casts (`int32_cast`, `uint32_cast`).
- Loops whose iteration count is data dependent are modelled with an
  explicit loop counter that provably dominates the number of
  iterations; the accompanying stability theorems
  (`enableAllFuel_stable`, `propagateFuel_stable`, `range_base_walk_stable`)
  show the counter never runs out, so the functions agree with the
  unbounded C loops on every input.
-/

/-- LY_ERR return codes of the library (ly_common.h). -/
inductive LY_ERR where
  | LY_SUCCESS
  | LY_EMEM
  | LY_ESYS
  | LY_EINVAL
  | LY_EEXIST
  | LY_ENOTFOUND
  | LY_EINT
  | LY_EVALID
  | LY_EDENIED
deriving DecidableEq, Repr

/-- Decidable equality of `Except`, used to evaluate the compiled-item
results on concrete inputs. -/
instance {e b : Type} [DecidableEq e] [DecidableEq b] : DecidableEq (Except e b) := fun x y =>
  match x, y with
  | .ok u, .ok v =>
    if h : u = v then isTrue (congrArg Except.ok h)
    else isFalse (fun hc => h (by cases hc; rfl))
  | .error u, .error v =>
    if h : u = v then isTrue (congrArg Except.error h)
    else isFalse (fun hc => h (by cases hc; rfl))
  | .ok _, .error _ => isFalse (fun hc => nomatch hc)
  | .error _, .ok _ => isFalse (fun hc => nomatch hc)

/-- LY_DATA_TYPE constants (the 20 YANG built-in base types). -/
inductive LY_DATA_TYPE where
  | LY_TYPE_UNKNOWN
  | LY_TYPE_BINARY
  | LY_TYPE_BITS
  | LY_TYPE_BOOL
  | LY_TYPE_DEC64
  | LY_TYPE_EMPTY
  | LY_TYPE_ENUM
  | LY_TYPE_IDENT
  | LY_TYPE_INST
  | LY_TYPE_LEAFREF
  | LY_TYPE_STRING
  | LY_TYPE_UNION
  | LY_TYPE_INT8
  | LY_TYPE_UINT8
  | LY_TYPE_INT16
  | LY_TYPE_UINT16
  | LY_TYPE_INT32
  | LY_TYPE_UINT32
  | LY_TYPE_INT64
  | LY_TYPE_UINT64
deriving DecidableEq, Repr

/-- Compiled if-feature expression. The C form is a bit-packed postfix
byte sequence (`LYS_IFF_F/NOT/AND/OR`, two bits per opcode) together with
a parallel array of feature pointers, evaluated by the recursive-descent
interpreter `lysc_iffeature_value_` over the two running indices; that
traversal is exactly the preorder walk of this expression tree. Feature
pointers are modelled as indices into the compiled module feature list. -/
inductive IffExpr where
  | f (idx : Nat)
  | nots (e : IffExpr)
  | ands (a b : IffExpr)
  | ors (a b : IffExpr)
deriving DecidableEq, Repr

/-- struct lysc_iffeature: `expr = none` models a NULL `iff->expr`. -/
structure LyscIffeature where
  expr : Option IffExpr
deriving DecidableEq, Repr

/-- struct lysc_feature: name, the LYS_FENABLED bit of `flags`, the
if-feature expressions, and the dependant features back-link list
(indices into the owning module feature list). -/
structure LyscFeature where
  name : String
  enabled : Bool
  iffeatures : List LyscIffeature
  depfeatures : List Nat
deriving DecidableEq, Repr

/-- struct lysc_module (the fields used by the feature runtime). -/
structure LyscModule where
  name : String
  features : List LyscFeature
deriving DecidableEq, Repr

/-- struct lys_module (the fields used by the feature runtime). -/
structure LysModule where
  compiled : Option LyscModule
deriving DecidableEq, Repr

/-- API int lysc_feature_value(const struct lysc_feature *feature):
-1 on a NULL argument, otherwise 1 when the LYS_FENABLED bit of
`feature->flags` is set and 0 when it is not. -/
def lysc_feature_value (feature : Option LyscFeature) : Int :=
  match feature with
  | none => -1
  | some f => if f.enabled then 1 else 0

/-- static int lysc_iffeature_value_(...): recursive-descent evaluation
of the postfix expression. `&&` and `||` of C on int operands give 0/1;
both operands are evaluated. A FEATURE opcode resolves through
`lysc_feature_value` on the referenced feature (an index into `fs`
here; an out-of-range index is a dangling pointer and yields the NULL
behaviour of `lysc_feature_value`). -/
def lysc_iffeature_value_ (fs : List LyscFeature) : IffExpr → Int
  | .f i => lysc_feature_value (fs.get? i)
  | .nots e => if lysc_iffeature_value_ fs e ≠ 0 then 0 else 1
  | .ands a b =>
      if lysc_iffeature_value_ fs a ≠ 0 ∧ lysc_iffeature_value_ fs b ≠ 0 then 1 else 0
  | .ors a b =>
      if lysc_iffeature_value_ fs a ≠ 0 ∨ lysc_iffeature_value_ fs b ≠ 0 then 1 else 0

/-- API int lysc_iffeature_value(const struct lysc_iffeature *iff):
evaluates `iff->expr` when present, otherwise returns 0. -/
def lysc_iffeature_value (iff : LyscIffeature) (fs : List LyscFeature) : Int :=
  match iff.expr with
  | some e => lysc_iffeature_value_ fs e
  | none => 0

/-- API int lys_feature_value(const struct lys_module *module, const char
*feature): -1 when `module`, `module->compiled` or `feature` is NULL,
otherwise the enabled bit (1/0) of the first feature of
`module->compiled->features` whose name equals `feature`, and -1 when no
feature of that name exists. -/
def lys_feature_value (module : Option LysModule) (feature : Option String) : Int :=
  match module with
  | none => -1
  | some m =>
    match m.compiled with
    | none => -1
    | some mod =>
      match feature with
      | none => -1
      | some fname =>
        match mod.features.find? (fun f => f.name = fname) with
        | some f => if f.enabled then 1 else 0
        | none => -1

/-- Number of features with the enabled bit set (used as the loop
variant of the C loops of `lys_feature_change` whose iteration counts
are data dependent). -/
def enabledCount : List LyscFeature → Nat
  | [] => 0
  | f :: fs => (if f.enabled then 1 else 0) + enabledCount fs

/-- Outcome of one `run:` pass of `lys_feature_change`: either an early
`return` from inside the loop (single-feature mode only), or the loop
ran to the end with the updated feature array, the features newly added
to the `changed` set (as indices, in flip order) and the
`disabled_count` of this pass. -/
inductive PassOut where
  | early (e : LY_ERR)
  | done (fs : List LyscFeature) (changed : List Nat) (disabled : Nat)
deriving DecidableEq, Repr

/-- One iteration sequence of the `run:` loop of `lys_feature_change`,
starting at feature index `u`; `k` is the number of remaining loop
iterations (`LY_ARRAY_SIZE(mod->features) - u`, an invariant of every
call because `List.set` preserves the length). Mirrors lines 906-954 of
`src/tree_schema.c`. -/
def runPassAux (name : String) (all value : Bool) :
    Nat → Nat → List LyscFeature → List Nat → Nat → PassOut
  | 0, _, fs, ch, dis => .done fs ch dis
  | k + 1, u, fs, ch, dis =>
    match fs.get? u with
    | none => .done fs ch dis
    | some f =>
      if all ∨ f.name = name then
        if f.enabled = value then
          -- feature already set to the desired value
          if all then runPassAux name all value k (u + 1) fs ch dis
          else .early .LY_SUCCESS
        else if value then
          -- enable: check referenced features
          if f.iffeatures.any (fun iff => lysc_iffeature_value iff fs = 0) then
            if all then runPassAux name all value k (u + 1) fs ch (dis + 1)
            else .early .LY_EDENIED
          else
            let fs' := fs.set u { f with enabled := true }
            if all then runPassAux name all value k (u + 1) fs' (ch ++ [u]) dis
            else .done fs' (ch ++ [u]) dis
        else
          -- disable
          let fs' := fs.set u { f with enabled := false }
          if all then runPassAux name all value k (u + 1) fs' (ch ++ [u]) dis
          else .done fs' (ch ++ [u]) dis
      else runPassAux name all value k (u + 1) fs ch dis

/-- One full `run:` pass over the whole feature array. -/
def runPass (name : String) (all value : Bool) (fs : List LyscFeature) : PassOut :=
  runPassAux name all value fs.length 0 fs [] 0

/-- The rollback loop of `lys_feature_change` (lines 975-979):
re-disable every feature recorded in the `changed` set. -/
def rollback : List LyscFeature → List Nat → List LyscFeature
  | fs, [] => fs
  | fs, i :: rest =>
    match fs.get? i with
    | none => rollback fs rest
    | some f => rollback (fs.set i { f with enabled := false }) rest

/-- Result of the enable-all fixpoint iteration: `denied` carries the
rolled-back feature array, `ok` the final array and the accumulated
`changed` set. -/
inductive AllOut where
  | denied (fs : List LyscFeature)
  | ok (fs : List LyscFeature) (changed : List Nat)
deriving DecidableEq, Repr

/-- The `goto run` fixpoint of `lys_feature_change` in the enable-all
case (lines 906-988): run a pass; if some features were skipped because
their if-feature evaluated false and the last pass enabled nothing new,
roll back and report denial, otherwise repeat. `cc` is `changed_count`
(the size of `changed` before the pass; every call site passes
`changed.length`). `k` is a pass counter; `enableAllFuel_stable` below
shows the initial value `fs.length + 1` is never exhausted, because each
repeated pass strictly increases `enabledCount`. An all-mode pass never
returns early (`runPassAux_all_done`), so the `.early` branch is dead. -/
def enableAllFuel (name : String) : Nat → List LyscFeature → List Nat → Nat → AllOut
  | 0, fs, changed, _ => .ok fs changed
  | k + 1, fs, changed, cc =>
    match runPass name true true fs with
    | .early _ => .ok fs changed
    | .done fs' newCh dis =>
      let ch' := changed ++ newCh
      if 0 < dis then
        if cc = ch'.length then .denied (rollback fs' ch')
        else enableAllFuel name k fs' ch' ch'.length
      else .ok fs' ch'

/-- Entry point of the enable-all fixpoint iteration. -/
def enableAllRuns (name : String) (fs : List LyscFeature) : AllOut :=
  enableAllFuel name (fs.length + 1) fs [] 0

/-- Body of the dependant-features propagation loop (lines 996-1011):
walk the `depfeatures` of one changed feature; a dependant that is
enabled but whose if-feature now evaluates false is disabled and
appended to the `changed` set. Returns the updated feature array and
the appended indices in order. -/
def propStep : List LyscFeature → List Nat → List LyscFeature × List Nat
  | fs, [] => (fs, [])
  | fs, d :: rest =>
    match fs.get? d with
    | none => propStep fs rest
    | some f =>
      if f.enabled = false then propStep fs rest
      else if f.iffeatures.any (fun iff => lysc_iffeature_value iff fs = 0) then
        let fs' := fs.set d { f with enabled := false }
        let r := propStep fs' rest
        (r.1, d :: r.2)
      else propStep fs rest

/-- The propagation loop of `lys_feature_change` (lines 991-1012): a
worklist over the `changed` set, which grows while it is being walked.
`k` bounds the number of worklist items processed;
`propagateFuel_stable` shows the initial value
`work.length + enabledCount fs` is never exhausted, because every
appended item coincides with one enabled bit being cleared. -/
def propagateFuel : Nat → List LyscFeature → List Nat → List LyscFeature
  | 0, fs, _ => fs
  | _ + 1, fs, [] => fs
  | k + 1, fs, w :: rest =>
    let deps := match fs.get? w with
                | none => []
                | some f => f.depfeatures
    let r := propStep fs deps
    propagateFuel k r.1 (rest ++ r.2)

/-- Entry point of the dependant-features propagation. -/
def propagate (fs : List LyscFeature) (work : List Nat) : List LyscFeature :=
  propagateFuel (work.length + enabledCount fs) fs work

/-- static LY_ERR lys_feature_change(const struct lysc_module *mod,
const char *name, int value) (lines 885-1016). The mutated module is
returned alongside the error code. -/
def lys_feature_change (mod : LyscModule) (name : String) (value : Bool) :
    LY_ERR × LyscModule :=
  if mod.features = [] then (.LY_EINVAL, mod)
  else
    let all := name = "*"
    if all ∧ value then
      match enableAllRuns name mod.features with
      | .denied fsR => (.LY_EDENIED, { mod with features := fsR })
      | .ok fs' changed => (.LY_SUCCESS, { mod with features := propagate fs' changed })
    else
      match runPass name all value mod.features with
      | .early e => (e, mod)
      | .done fs' ch _ =>
        if ¬all ∧ ch = [] then (.LY_EINVAL, mod)
        else (.LY_SUCCESS, { mod with features := propagate fs' ch })

/-- API LY_ERR lys_feature_enable(struct lys_module *module, const char
*feature): LY_EINVAL when `module`, `module->compiled` or `feature` is
NULL, otherwise `lys_feature_change(module->compiled, feature, 1)`. -/
def lys_feature_enable (module : Option LysModule) (feature : Option String) :
    LY_ERR × Option LysModule :=
  match module, feature with
  | some m, some fname =>
    match m.compiled with
    | some c =>
      let r := lys_feature_change c fname true
      (r.1, some { m with compiled := some r.2 })
    | none => (.LY_EINVAL, module)
  | _, _ => (.LY_EINVAL, module)

/-- API LY_ERR lys_feature_disable(struct lys_module *module, const char
*feature): LY_EINVAL when `module`, `module->compiled` or `feature` is
NULL, otherwise `lys_feature_change(module->compiled, feature, 0)`. -/
def lys_feature_disable (module : Option LysModule) (feature : Option String) :
    LY_ERR × Option LysModule :=
  match module, feature with
  | some m, some fname =>
    match m.compiled with
    | some c =>
      let r := lys_feature_change c fname false
      (r.1, some { m with compiled := some r.2 })
    | none => (.LY_EINVAL, module)
  | _, _ => (.LY_EINVAL, module)

/-- struct lysc_range_part: one inclusive interval of a range/length
restriction. The C union stores a 64-bit payload read as `int64`
(`min_64`) or `uint64` (`min_u64`) according to the base type; here the
value type `a` is instantiated with `Int` for the signed view and `Nat`
for the unsigned view. -/
structure lysc_range_part (a : Type) where
  min : a
  max : a
deriving DecidableEq, Repr

/-- The two-cursor walk of `lys_compile_type_range` comparing the parsed
derived parts against the base (parent) range parts (lines 1790-1846 of
`src/tree_schema.c`). The cursors advance as in the C `for` loop:
consuming the head of the first list is `++u`, consuming the head of the
second is `++v; --u`, consuming both is `++v` plus the loop increment.
`k` is an iteration counter; every iteration consumes at least one list
element, so `derived.length + base.length + 1` iterations always
suffice (`range_base_walk_stable`). The boolean result is
`u == parts_done` of line 1847: false means `goto baseerror`
(equality of 64-bit payloads is representation independent, so `=` on
`a` matches the C `min_64` comparisons also in the unsigned view). -/
def range_base_walk {a : Type} [LinearOrder a] [DecidableEq a] :
    Nat → List (lysc_range_part a) → List (lysc_range_part a) → Bool
  | 0, _, _ => false
  | _ + 1, [], _ => true
  | _ + 1, _ :: _, [] => false
  | k + 1, d :: ds, p :: ps =>
    if d.min < p.min then false
    else if p.min = p.max then
      -- base has single value
      if p.min = d.min then
        if d.min = d.max then range_base_walk k ds ps else false
      else range_base_walk k (d :: ds) ps
    else if d.min = d.max then
      -- base is a range, derived a single value
      if p.max < d.max then range_base_walk k (d :: ds) ps
      else range_base_walk k ds (p :: ps)
    else if p.max < d.max then
      -- both ranges, derived upper bound exceeds the base upper bound
      if p.max < d.min then range_base_walk k (d :: ds) ps else false
    else range_base_walk k ds (p :: ps)

/-- Entry point of the two-cursor walk. -/
def range_base_check {a : Type} [LinearOrder a] [DecidableEq a]
    (derived base : List (lysc_range_part a)) : Bool :=
  range_base_walk (derived.length + base.length + 1) derived base

/-- The base-restriction stage of `lys_compile_type_range`
(lines 1767-1854): with an inherited `base_range` the derived parts must
pass the two-cursor walk, otherwise the function reports the `Validation`
error "the derived restriction is not equally or more limiting"
(`LYVE_SYNTAX_YANG` log, return `LY_EVALID`). The preceding
string-parsing stage is outside the scope of this development; its
output is the `derived` part list. -/
def lys_compile_type_range_basecheck {a : Type} [LinearOrder a] [DecidableEq a]
    (derived : List (lysc_range_part a)) (base_range : Option (List (lysc_range_part a))) :
    LY_ERR :=
  match base_range with
  | none => .LY_SUCCESS
  | some base => if range_base_check derived base then .LY_SUCCESS else .LY_EVALID

/-- The escape loop of `lys_compile_type_pattern_check`
(lines 2001-2010): every literal dollar and caret is escaped with a
backslash, all other characters are copied. -/
def lys_compile_type_pattern_escape : List Char → List Char
  | [] => []
  | c :: rest =>
    if c = '$' then '\\' :: '$' :: lys_compile_type_pattern_escape rest
    else if c = '^' then '\\' :: '^' :: lys_compile_type_pattern_escape rest
    else c :: lys_compile_type_pattern_escape rest

/-- The tail test `strncmp(pattern + strlen(pattern) - 2, ".*", 2) == 0`
of lines 1995 and 2012: the last two characters of the pattern are `.`
followed by `*` (for inputs shorter than two characters the C read is
out of bounds; this model gives the no-match outcome). -/
def pattern_ends_dotstar (s : List Char) : Bool :=
  match s.reverse with
  | c1 :: c2 :: _ => c2 = '.' && c1 = '*'
  | _ => false

/-- The XSD-to-Perl translation stage of `lys_compile_type_pattern_check`
(lines 1983-2017 of `src/tree_schema.c`): escape `$` and `^`, and unless
the input pattern already ends in `.*` wrap the translated body as
`(...)$` (the later Unicode-block substitution stage and the PCRE
compilation are outside this stage). -/
def lys_compile_type_pattern_perl (pattern : String) : String :=
  let esc := String.mk (lys_compile_type_pattern_escape pattern.data)
  if pattern_ends_dotstar pattern.data then esc
  else "(" ++ esc ++ ")$"

/-- struct lysp_type_enum (the fields used by `lys_compile_type_enums`):
item name, the LYS_SET_VALUE bit of `flags`, and the parsed `value`
(an `int64_t`). -/
structure LyspEnum where
  name : String
  hasValue : Bool
  value : Int
deriving DecidableEq, Repr

/-- struct lysc_type_enum_item (the fields used by
`lys_compile_type_enums`): item name and assigned `int32_t` value (the
bit position for bits, stored in the same signed field). -/
structure LyscEnumItem where
  name : String
  value : Int
deriving DecidableEq, Repr

/-- C cast to `int32_t` (wrap-around two-complement semantics). -/
def int32_cast (x : Int) : Int := (x + 2147483648) % 4294967296 - 2147483648

/-- C cast to `uint32_t` (reduction modulo 2^32; result in [0, 2^32)). -/
def uint32_cast (x : Int) : Int := x % 4294967296

/-- Value assignment of one enumeration item (the LY_TYPE_ENUM branch,
lines 2189-2220): explicit value (with the collision check against the
already compiled items), inherited value from the matched base item, or
automatic assignment with the INT32_MAX overflow check. Returns the
item value and the updated auto-assignment counter `value`. -/
def enumValueStep (mb : Option LyscEnumItem) (p : LyspEnum) (u : Nat)
    (acc : List LyscEnumItem) (value : Int) : Except LY_ERR (Int × Int) :=
  if p.hasValue then
    let e := int32_cast p.value
    let value' := if u = 0 ∨ value ≤ e then int32_cast (e + 1) else value
    if acc.any (fun it => it.value = e) then .error .LY_EVALID
    else .ok (e, value')
  else
    match mb with
    | some b =>
      let e := b.value
      .ok (e, if u = 0 ∨ value ≤ e then int32_cast (e + 1) else value)
    | none =>
      if u ≠ 0 ∧ value = -2147483648 then .error .LY_EVALID
      else .ok (value, int32_cast (value + 1))

/-- Value assignment of one bits item (the LY_TYPE_BITS branch, lines
2221-2252): explicit position (with the collision check), inherited
position, or automatic assignment with the UINT32_MAX overflow check.
`position` is the `uint32_t` counter. -/
def bitsValueStep (mb : Option LyscEnumItem) (p : LyspEnum) (u : Nat)
    (acc : List LyscEnumItem) (position : Int) : Except LY_ERR (Int × Int) :=
  if p.hasValue then
    let e := int32_cast p.value
    let position' := if u = 0 ∨ position ≤ uint32_cast e then uint32_cast (uint32_cast e + 1)
                     else position
    if acc.any (fun it => it.value = e) then .error .LY_EVALID
    else .ok (e, position')
  else
    match mb with
    | some b =>
      let e := b.value
      .ok (e, if u = 0 ∨ position ≤ uint32_cast e then uint32_cast (uint32_cast e + 1)
              else position)
    | none =>
      if u ≠ 0 ∧ position = 0 then .error .LY_EVALID
      else .ok (int32_cast position, uint32_cast (position + 1))

/-- The keep-bits-ordered insertion of lines 2274-2282: the new item is
moved before the maximal suffix of already compiled items whose value
exceeds its own (`for (v = u; v && (*enums)[v-1].value > e->value; --v)`
followed by the memmove). -/
def bitsOrderedInsert (acc : List LyscEnumItem) (item : LyscEnumItem) : List LyscEnumItem :=
  let k := (acc.reverse.takeWhile (fun it => item.value < it.value)).length
  acc.take (acc.length - k) ++ item :: acc.drop (acc.length - k)

/-- The item loop of `lys_compile_type_enums` (lines 2170-2283): `u` is
the loop index, `acc` the compiled items so far (`*enums`), `value` and
`position` the two auto-assignment counters. Each iteration checks the
base-type subset condition (a derived type must not add new items),
computes the item value, enforces that an inherited item keeps the base
value, and appends (enumerations) or position-sorts (bits) the item.
The if-feature and extension sub-statement compilation of the items is
not modelled (it only recurses into the generic sub-compilers). -/
def enumsAux (bt : LY_DATA_TYPE) (base_enums : Option (List LyscEnumItem)) :
    List LyspEnum → Nat → List LyscEnumItem → Int → Int → Except LY_ERR (List LyscEnumItem)
  | [], _, acc, _, _ => .ok acc
  | p :: rest, u, acc, value, position =>
    let mbStep : Except LY_ERR (Option LyscEnumItem) :=
      match base_enums with
      | none => .ok none
      | some bes =>
        -- the set of enums/bits in the derived type must be a subset
        match bes.find? (fun b => b.name = p.name) with
        | none => .error .LY_EVALID
        | some b => .ok (some b)
    match mbStep with
    | .error e => .error e
    | .ok mb =>
      match (if bt = .LY_TYPE_ENUM then enumValueStep mb p u acc value
             else bitsValueStep mb p u acc position) with
      | .error e => .error e
      | .ok ec =>
        let changeOk : Bool := match mb with
                               | some b => ec.1 = b.value
                               | none => true
        if changeOk then
          let item : LyscEnumItem := ⟨p.name, ec.1⟩
          let acc' := if bt = .LY_TYPE_ENUM then acc ++ [item] else bitsOrderedInsert acc item
          let value' := if bt = .LY_TYPE_ENUM then ec.2 else value
          let position' := if bt = .LY_TYPE_ENUM then position else ec.2
          enumsAux bt base_enums rest (u + 1) acc' value' position'
        else .error .LY_EVALID

/-- static LY_ERR lys_compile_type_enums(...): compile the parsed
enum/bits items against the optional base-type items. -/
def lys_compile_type_enums (enums_p : List LyspEnum) (basetype : LY_DATA_TYPE)
    (base_enums : Option (List LyscEnumItem)) : Except LY_ERR (List LyscEnumItem) :=
  enumsAux basetype base_enums enums_p 0 [] 0 0

/-- Demonstration module for the feature runtime scenario of the spec
(features `a`, `b`, `c`, `f { if-feature "(a and not b) or c"; }` and a
dependant `g { if-feature "f"; }`); `depfeatures` back-links registered
as `lys_compile_feature` would. -/
def demo_m0 : LyscModule :=
  ⟨"demo", [⟨"a", false, [], [3]⟩, ⟨"b", false, [], [3]⟩, ⟨"c", false, [], [3]⟩,
    ⟨"f", false, [⟨some (.ors (.ands (.f 0) (.nots (.f 1))) (.f 2))⟩], [4]⟩,
    ⟨"g", false, [⟨some (.f 3)⟩], []⟩]⟩

/-- Scenario step 1: enable `a`. -/
def demo_s1 := lys_feature_change demo_m0 "a" true

/-- Scenario step 2: enable `f` (its if-feature holds). -/
def demo_s2 := lys_feature_change demo_s1.2 "f" true

/-- Scenario step 3: enable `g` (its if-feature `f` holds). -/
def demo_s3 := lys_feature_change demo_s2.2 "g" true

/-- Scenario step 4: enable `b`; propagation must auto-disable `f`, and
transitively `g`. -/
def demo_s4 := lys_feature_change demo_s3.2 "b" true

/-- Scenario step 5: enable `c`; although the if-feature of `f` holds
again, `f` must not be auto-re-enabled. -/
def demo_s5 := lys_feature_change demo_s4.2 "c" true

/-- Module on which enable-all can never finish: the if-feature
`g and not g` of `f` is unsatisfiable. -/
def demo_all : LyscModule :=
  ⟨"alldemo", [⟨"f", false, [⟨some (.ands (.f 1) (.nots (.f 1)))⟩], []⟩,
               ⟨"g", false, [], [0]⟩]⟩

/-- Base enumeration items `{one = 1, two = 2, three = 3}` of the
enum-derivation scenario. -/
def demo_base : List LyscEnumItem := [⟨"one", 1⟩, ⟨"two", 2⟩, ⟨"three", 3⟩]

/-- Invariant of the enable-all iteration of `lys_feature_change`: the
working feature array `fs` differs from the original `fs0` exactly at
the distinct indices recorded in `changed`, each of which was disabled
in `fs0` and had only its enabled bit set. The rollback loop restores
`fs0` from any state satisfying it (`rollback_restores`). -/
def FlipInv (fs0 fs : List LyscFeature) (changed : List Nat) : Prop :=
  fs.length = fs0.length ∧
  changed.Nodup ∧
  (∀ i, i ∉ changed → fs.get? i = fs0.get? i) ∧
  (∀ i, i ∈ changed → ∃ f, fs0.get? i = some f ∧ f.enabled = false ∧
    fs.get? i = some { f with enabled := true })

theorem get?_append_lt {α : Type} (l1 l2 : List α) (j : Nat) (h : j < l1.length) :
    (l1 ++ l2).get? j = l1.get? j := by
  induction l1 generalizing j with
  | nil => simp at h
  | cons a t ih =>
    cases j with
    | zero => rfl
    | succ j => simpa using ih j (by simpa using h)

theorem get?_append_self {α : Type} (l : List α) (l2 : List α) (a : α) :
    (l ++ a :: l2).get? l.length = some a := by
  induction l with
  | nil => rfl
  | cons b t ih => simpa using ih

theorem drop_cons_of_get? {α : Type} (l : List α) (n : Nat) (a : α)
    (h : l.get? n = some a) : l.drop n = a :: l.drop (n + 1) := by
  induction l generalizing n with
  | nil => simp at h
  | cons b t ih =>
    cases n with
    | zero => simp at h; simp [h]
    | succ n => simpa using ih n (by simpa using h)

theorem enabledCount_le_length (fs : List LyscFeature) : enabledCount fs ≤ fs.length := by
  induction fs with
  | nil => simp [enabledCount]
  | cons f t ih => simp only [enabledCount, List.length_cons]; split <;> omega

theorem enabledCount_set_true (fs : List LyscFeature) (i : Nat) (f : LyscFeature)
    (hg : fs.get? i = some f) (hf : f.enabled = false) :
    enabledCount (fs.set i { f with enabled := true }) = enabledCount fs + 1 := by
  induction fs generalizing i with
  | nil => simp at hg
  | cons a t ih =>
    cases i with
    | zero =>
      simp only [List.get?] at hg
      cases hg
      simp [enabledCount, hf]
      omega
    | succ i =>
      simp only [List.get?] at hg
      simp only [List.set, enabledCount]
      rw [ih i hg]
      omega

theorem enabledCount_set_false (fs : List LyscFeature) (i : Nat) (f : LyscFeature)
    (hg : fs.get? i = some f) (hf : f.enabled = true) :
    enabledCount (fs.set i { f with enabled := false }) + 1 = enabledCount fs := by
  induction fs generalizing i with
  | nil => simp at hg
  | cons a t ih =>
    cases i with
    | zero =>
      simp only [List.get?] at hg
      cases hg
      simp [enabledCount, hf]
      omega
    | succ i =>
      simp only [List.get?] at hg
      simp only [List.set, enabledCount]
      rw [← ih i hg]
      omega


theorem get?_some_lt {α : Type} {l : List α} {n : Nat} {a : α}
    (h : l.get? n = some a) : n < l.length := by
  by_contra hn
  push_neg at hn
  rw [List.get?_eq_none.2 hn] at h
  cases h

theorem get?_set_self {α : Type} (l : List α) (n : Nat) (a : α) (h : n < l.length) :
    (l.set n a).get? n = some a := by
  induction l generalizing n with
  | nil => simp at h
  | cons b t ih =>
    cases n with
    | zero => rfl
    | succ n => exact ih n (by simpa using h)

theorem get?_set_other {α : Type} (l : List α) (m n : Nat) (a : α) (h : m ≠ n) :
    (l.set m a).get? n = l.get? n := by
  induction l generalizing m n with
  | nil => rfl
  | cons b t ih =>
    cases m with
    | zero =>
      cases n with
      | zero => exact absurd rfl h
      | succ n => rfl
    | succ m =>
      cases n with
      | zero => rfl
      | succ n => exact ih m n (by omega)

theorem propStep_cons (fs : List LyscFeature) (d : Nat) (rest : List Nat) :
    propStep fs (d :: rest) =
      match fs.get? d with
      | none => propStep fs rest
      | some f =>
        if f.enabled = false then propStep fs rest
        else if f.iffeatures.any (fun iff => lysc_iffeature_value iff fs = 0) then
          ((propStep (fs.set d { f with enabled := false }) rest).1,
            d :: (propStep (fs.set d { f with enabled := false }) rest).2)
        else propStep fs rest := rfl

theorem propStep_length (deps : List Nat) (fs : List LyscFeature) :
    (propStep fs deps).1.length = fs.length := by
  induction deps generalizing fs with
  | nil => simp [propStep]
  | cons d rest ih =>
    rw [propStep_cons]
    split
    · exact ih fs
    · split
      · exact ih fs
      · split
        · show (propStep _ rest).1.length = _
          rw [ih]
          exact List.length_set ..
        · exact ih fs

theorem propStep_count (deps : List Nat) (fs : List LyscFeature) :
    enabledCount (propStep fs deps).1 + (propStep fs deps).2.length = enabledCount fs := by
  induction deps generalizing fs with
  | nil => simp [propStep]
  | cons d rest ih =>
    rw [propStep_cons]
    split
    · exact ih fs
    · rename_i f heq
      split
    
      · exact ih fs
      · rename_i hen
        split
        · show enabledCount (propStep _ rest).1 + (d :: (propStep _ rest).2).length = _
          have hc := enabledCount_set_false fs d f heq
            (by revert hen; cases f.enabled <;> simp)
          have hi := ih (fs.set d { f with enabled := false })
          simp only [List.length_cons]
          omega
        · exact ih fs

theorem propStep_no_enable (deps : List Nat) (fs : List LyscFeature) (i : Nat)
    (f' : LyscFeature) (hres : (propStep fs deps).1.get? i = some f')
    (hen : f'.enabled = true) : fs.get? i = some f' := by
  induction deps generalizing fs with
  | nil => simpa only [propStep] using hres
  | cons d rest ih =>
    rw [propStep_cons] at hres
    split at hres
    · exact ih fs hres
    · rename_i f heq
      split at hres
      · exact ih fs hres
      · split at hres
        · have hstep := ih (fs.set d { f with enabled := false }) hres
          by_cases hid : d = i
          · subst hid
            rw [get?_set_self fs d _ (get?_some_lt heq)] at hstep
            cases hstep
            simp at hen
          · rwa [get?_set_other fs d i _ hid] at hstep
        · exact ih fs hres

theorem propStep_keeps_disabled (deps : List Nat) (fs : List LyscFeature) (i : Nat)
    (f : LyscFeature) (hg : fs.get? i = some f) (hen : f.enabled = false) :
    (propStep fs deps).1.get? i = some f := by
  induction deps generalizing fs with
  | nil => simpa only [propStep]
  | cons d rest ih =>
    rw [propStep_cons]
    split
    · exact ih fs hg
    · rename_i fd heq
      split
      · exact ih fs hg
      · rename_i hde
        split
        · have hne : d ≠ i := by
            intro hdi
            subst hdi
            rw [hg] at heq
            cases heq
            exact hde hen
          exact ih (fs.set d { fd with enabled := false })
            (by rwa [get?_set_other fs d i _ hne])
        · exact ih fs hg

theorem propagateFuel_no_enable (k : Nat) (fs : List LyscFeature) (work : List Nat)
    (i : Nat) (f' : LyscFeature) (hres : (propagateFuel k fs work).get? i = some f')
    (hen : f'.enabled = true) : fs.get? i = some f' := by
  induction k generalizing fs work with
  | zero => simpa only [propagateFuel] using hres
  | succ k ih =>
    cases work with
    | nil => simpa only [propagateFuel] using hres
    | cons w rest =>
      simp only [propagateFuel] at hres
      exact propStep_no_enable _ fs i f' (ih _ _ hres) hen

theorem propagateFuel_stable (k : Nat) : ∀ (j : Nat) (fs : List LyscFeature)
    (work : List Nat), work.length + enabledCount fs ≤ k → k ≤ j →
    propagateFuel k fs work = propagateFuel j fs work := by
  induction k with
  | zero =>
    intro j fs work hb _
    have hw : work = [] := by
      cases work with
      | nil => rfl
      | cons w r => simp at hb
    subst hw
    cases j <;> simp [propagateFuel]
  | succ k ih =>
    intro j fs work hb hj
    cases work with
    | nil =>
      cases j with
      | zero => omega
      | succ j => simp [propagateFuel]
    | cons w rest =>
      cases j with
      | zero => omega
      | succ j =>
        simp only [propagateFuel]
        set deps := (match fs.get? w with
                     | none => []
                     | some f => f.depfeatures) with hdeps
        have hcnt := propStep_count deps fs
        apply ih j
        · simp only [List.length_append, List.length_cons] at hb ⊢
          omega
        · omega

theorem propagate_eq_fuel (k : Nat) (fs : List LyscFeature) (work : List Nat)
    (h : work.length + enabledCount fs ≤ k) :
    propagate fs work = propagateFuel k fs work := by
  unfold propagate
  exact propagateFuel_stable _ _ _ _ (Nat.le_refl _) h

theorem propagate_no_enable (fs : List LyscFeature) (work : List Nat)
    (i : Nat) (f' : LyscFeature) (hres : (propagate fs work).get? i = some f')
    (hen : f'.enabled = true) : fs.get? i = some f' :=
  propagateFuel_no_enable _ fs work i f' hres hen

theorem propStep_head (fs : List LyscFeature) (d : Nat) (rest : List Nat)
    (f : LyscFeature) (hg : fs.get? d = some f) (hen : f.enabled = true)
    (hiff : f.iffeatures.any (fun iff => lysc_iffeature_value iff fs = 0) = true) :
    (propStep fs (d :: rest)).1.get? d = some { f with enabled := false } ∧
      d ∈ (propStep fs (d :: rest)).2 := by
  rw [propStep_cons, hg]
  simp only [hen, hiff, Bool.true_eq_false, if_false, if_true]
  constructor
  · exact propStep_keeps_disabled rest _ d { f with enabled := false }
      (get?_set_self fs d _ (get?_some_lt hg)) rfl
  · exact List.mem_cons_self d _

theorem runPassAux_succ (name : String) (all value : Bool) (k u : Nat)
    (fs : List LyscFeature) (ch : List Nat) (dis : Nat) :
    runPassAux name all value (k + 1) u fs ch dis =
      match fs.get? u with
      | none => .done fs ch dis
      | some f =>
        if all ∨ f.name = name then
          if f.enabled = value then
            if all then runPassAux name all value k (u + 1) fs ch dis
            else .early .LY_SUCCESS
          else if value then
            if f.iffeatures.any (fun iff => lysc_iffeature_value iff fs = 0) then
              if all then runPassAux name all value k (u + 1) fs ch (dis + 1)
              else .early .LY_EDENIED
            else
              if all then
                runPassAux name all value k (u + 1)
                  (fs.set u { f with enabled := true }) (ch ++ [u]) dis
              else .done (fs.set u { f with enabled := true }) (ch ++ [u]) dis
          else
            if all then
              runPassAux name all value k (u + 1)
                (fs.set u { f with enabled := false }) (ch ++ [u]) dis
            else .done (fs.set u { f with enabled := false }) (ch ++ [u]) dis
        else runPassAux name all value k (u + 1) fs ch dis := rfl

theorem runPassAux_all_done (name : String) (value : Bool) (k : Nat) :
    ∀ (u : Nat) (fs : List LyscFeature) (ch : List Nat) (dis : Nat),
    ∃ fs' ch' dis', runPassAux name true value k u fs ch dis = .done fs' ch' dis' := by
  induction k with
  | zero => intro u fs ch dis; exact ⟨fs, ch, dis, rfl⟩
  | succ k ih =>
    intro u fs ch dis
    rw [runPassAux_succ]
    cases hg : fs.get? u with
    | none => exact ⟨fs, ch, dis, rfl⟩
    | some f =>
      simp only [true_or, if_true]
      split
      · exact ih (u + 1) fs ch dis
      · split
        · split
          · exact ih (u + 1) fs ch (dis + 1)
          · exact ih (u + 1) _ _ dis
        · exact ih (u + 1) _ _ dis

theorem runPassAux_all_enable_count (name : String) (k : Nat) :
    ∀ (u : Nat) (fs : List LyscFeature) (ch : List Nat) (dis : Nat)
    (fs' : List LyscFeature) (ch' : List Nat) (dis' : Nat),
    runPassAux name true true k u fs ch dis = .done fs' ch' dis' →
    fs'.length = fs.length ∧
      enabledCount fs' + ch.length = enabledCount fs + ch'.length := by
  induction k with
  | zero =>
    intro u fs ch dis fs' ch' dis' h
    cases h
    omega
  | succ k ih =>
    intro u fs ch dis fs' ch' dis' h
    rw [runPassAux_succ] at h
    cases hg : fs.get? u with
    | none =>
      rw [hg] at h
      cases h
      omega
    | some f =>
      rw [hg] at h
      simp only [true_or, if_true] at h
      split at h
      · exact ih (u + 1) fs ch dis fs' ch' dis' h
      · rename_i hen
        split at h
        · exact ih (u + 1) fs ch (dis + 1) fs' ch' dis' h
        · have hset := enabledCount_set_true fs u f hg
            (by revert hen; cases f.enabled <;> simp)
          have := ih (u + 1) _ _ dis fs' ch' dis' h
          rw [hset, List.length_set] at this
          simp only [List.length_append, List.length_cons, List.length_nil] at this
          omega

theorem FlipInv_flip (fs0 fs : List LyscFeature) (S : List Nat) (u : Nat)
    (f : LyscFeature) (hg : fs.get? u = some f) (hen : f.enabled = false)
    (hInv : FlipInv fs0 fs S) :
    FlipInv fs0 (fs.set u { f with enabled := true }) (S ++ [u]) := by
  obtain ⟨hLen, hNodup, hOut, hIn⟩ := hInv
  have hu : u ∉ S := by
    intro hmem
    obtain ⟨f0, _, _, hcur⟩ := hIn u hmem
    rw [hg] at hcur
    cases hcur
    simp at hen
  refine ⟨?_, ?_, ?_, ?_⟩
  · rw [List.length_set]; exact hLen
  · rw [List.nodup_append]
    exact ⟨hNodup, List.nodup_singleton u, by
      intro x hx hx'
      simp only [List.mem_singleton] at hx'
      subst hx'
      exact hu hx⟩
  · intro i hi
    simp only [List.mem_append, List.mem_singleton] at hi
    push_neg at hi
    rw [get?_set_other fs u i _ (fun h => hi.2 h.symm)]
    exact hOut i hi.1
  · intro i hi
    simp only [List.mem_append, List.mem_singleton] at hi
    cases hi with
    | inl hiS =>
      have hne : u ≠ i := fun h => hu (h ▸ hiS)
      rw [get?_set_other fs u i _ hne]
      exact hIn i hiS
    | inr hiu =>
      subst hiu
      refine ⟨f, ?_, hen, ?_⟩
      · rw [← hOut i hu]; exact hg
      · exact get?_set_self fs i _ (get?_some_lt hg)

theorem runPassAux_all_enable_inv (name : String) (fs0 : List LyscFeature) (k : Nat) :
    ∀ (u : Nat) (fs : List LyscFeature) (C chL : List Nat) (dis : Nat)
    (fs' : List LyscFeature) (chL' : List Nat) (dis' : Nat),
    FlipInv fs0 fs (C ++ chL) →
    runPassAux name true true k u fs chL dis = .done fs' chL' dis' →
    FlipInv fs0 fs' (C ++ chL') := by
  induction k with
  | zero =>
    intro u fs C chL dis fs' chL' dis' hInv h
    cases h
    exact hInv
  | succ k ih =>
    intro u fs C chL dis fs' chL' dis' hInv h
    rw [runPassAux_succ] at h
    cases hg : fs.get? u with
    | none =>
      rw [hg] at h
      cases h
      exact hInv
    | some f =>
      rw [hg] at h
      simp only [true_or, if_true] at h
      split at h
      · exact ih (u + 1) fs C chL dis fs' chL' dis' hInv h
      · rename_i hen
        split at h
        · exact ih (u + 1) fs C chL (dis + 1) fs' chL' dis' hInv h
        · refine ih (u + 1) _ C (chL ++ [u]) dis fs' chL' dis' ?_ h
          rw [← List.append_assoc]
          exact FlipInv_flip fs0 fs (C ++ chL) u f hg
            (by revert hen; cases f.enabled <;> simp) hInv

theorem rollback_restores (fs0 : List LyscFeature) : ∀ (changed : List Nat)
    (fs : List LyscFeature), FlipInv fs0 fs changed → rollback fs changed = fs0 := by
  intro changed
  induction changed with
  | nil =>
    intro fs hInv
    simp only [rollback]
    exact List.ext_get?_iff.mpr (fun n => hInv.2.2.1 n (by simp))
  | cons i rest ih =>
    intro fs hInv
    obtain ⟨hLen, hNodup, hOut, hIn⟩ := hInv
    obtain ⟨f0, h0, h0en, hcur⟩ := hIn i (List.mem_cons_self i rest)
    simp only [rollback, hcur]
    have hrec : ({ { f0 with enabled := true } with enabled := false } : LyscFeature) = f0 := by
      cases f0
      simp only at h0en ⊢
      rw [h0en]
    rw [hrec]
    apply ih
    have hlt : i < fs.length := get?_some_lt hcur
    have hni : i ∉ rest := (List.nodup_cons.mp hNodup).1
    refine ⟨?_, (List.nodup_cons.mp hNodup).2, ?_, ?_⟩
    · rw [List.length_set]; exact hLen
    · intro j hj
      by_cases hji : j = i
      · subst hji
        rw [get?_set_self fs j f0 hlt, h0]
      · rw [get?_set_other fs i j _ (fun h => hji h.symm)]
        exact hOut j (by
          intro hmem
          rcases List.mem_cons.mp hmem with h | h
          · exact hji h
          · exact hj h)
    · intro j hj
      have hne : i ≠ j := fun h => hni (h ▸ hj)
      rw [get?_set_other fs i j _ hne]
      exact hIn j (List.mem_cons_of_mem i hj)

theorem enableAllFuel_denied (name : String) (fs0 : List LyscFeature) (k : Nat) :
    ∀ (fs : List LyscFeature) (changed : List Nat) (cc : Nat) (fsR : List LyscFeature),
    FlipInv fs0 fs changed →
    enableAllFuel name k fs changed cc = .denied fsR → fsR = fs0 := by
  induction k with
  | zero =>
    intro fs changed cc fsR _ h
    cases h
  | succ k ih =>
    intro fs changed cc fsR hInv h
    simp only [enableAllFuel] at h
    split at h
    · cases h
    · rename_i fs' newCh dis hp
      have hInv' : FlipInv fs0 fs' (changed ++ newCh) := by
        refine runPassAux_all_enable_inv name fs0 fs.length 0 fs changed [] 0
          fs' newCh dis ?_ hp
        simpa using hInv
      split at h
      · split at h
        · cases h
          exact rollback_restores fs0 _ fs' hInv'
        · exact ih fs' (changed ++ newCh) _ fsR hInv' h
      · cases h

theorem enableAllFuel_stable (name : String) (k : Nat) :
    ∀ (j : Nat) (fs : List LyscFeature) (changed : List Nat),
    fs.length + 1 ≤ k + enabledCount fs → k ≤ j →
    enableAllFuel name k fs changed changed.length =
      enableAllFuel name j fs changed changed.length := by
  induction k with
  | zero =>
    intro j fs changed hb _
    have := enabledCount_le_length fs
    omega
  | succ k ih =>
    intro j fs changed hb hj
    cases j with
    | zero => omega
    | succ j =>
      simp only [enableAllFuel]
      split
      · rfl
      · rename_i fs' newCh dis hp
        split
        · split
          · rfl
          · rename_i hne
            have hcnt := runPassAux_all_enable_count name fs.length 0 fs [] 0
              fs' newCh dis hp
            have hlen : newCh.length ≠ 0 := by
              intro h0
              apply hne
              simp [List.length_append, h0]
            exact ih j fs' (changed ++ newCh) (by
              simp only [List.length_nil] at hcnt
              omega) (by omega)
        · rfl

theorem get?_of_lt {α : Type} (l : List α) (n : Nat) (h : n < l.length) :
    ∃ a, l.get? n = some a := by
  cases hg : l.get? n with
  | none => rw [List.get?_eq_none] at hg; omega
  | some a => exact ⟨a, rfl⟩

theorem runPassAux_single_found (name : String) (value : Bool) (k : Nat) :
    ∀ (u : Nat) (fs : List LyscFeature) (ch : List Nat) (dis : Nat) (f : LyscFeature),
    (fs.drop u).find? (fun g => g.name = name) = some f →
    u + k = fs.length →
    (f.enabled = value → runPassAux name false value k u fs ch dis = .early .LY_SUCCESS) ∧
    (f.enabled ≠ value → value = true →
      f.iffeatures.any (fun iff => lysc_iffeature_value iff fs = 0) = true →
      runPassAux name false value k u fs ch dis = .early .LY_EDENIED) := by
  induction k with
  | zero =>
    intro u fs ch dis f hfind hlen
    rw [Nat.add_zero] at hlen
    rw [hlen, List.drop_length] at hfind
    cases hfind
  | succ k ih =>
    intro u fs ch dis f hfind hlen
    obtain ⟨g, hg⟩ := get?_of_lt fs u (by omega)
    rw [drop_cons_of_get? fs u g hg] at hfind
    rw [runPassAux_succ, hg]
    by_cases hname : g.name = name
    · rw [List.find?_cons_of_pos _ (by simpa using hname)] at hfind
      cases hfind
      simp only [hname, or_true, if_true]
      constructor
      · intro hval
        simp [hval]
      · intro hval hvt hiff
        subst hvt
        have hvf : f.enabled = false := by revert hval; cases f.enabled <;> simp
        simp [hvf, hiff]
    · rw [List.find?_cons_of_neg _ (by simpa using hname)] at hfind
      have hrec := ih (u + 1) fs ch dis f hfind (by omega)
      simp only [false_or, hname, if_false]
      exact hrec

theorem range_base_walk_sound {a : Type} [LinearOrder a] [DecidableEq a] (k : Nat) :
    ∀ (d p : List (lysc_range_part a)), range_base_walk k d p = true →
    ∀ part ∈ d, ∃ q ∈ p, q.min ≤ part.min ∧ part.max ≤ q.max := by
  induction k with
  | zero =>
    intro d p h
    simp [range_base_walk] at h
  | succ k ih =>
    intro d p h part hpart
    cases d with
    | nil => simp at hpart
    | cons d0 ds =>
      cases p with
      | nil => simp [range_base_walk] at h
      | cons p0 ps =>
        simp only [range_base_walk] at h
        split at h
        · cases h
        · rename_i hmin
          have hle : p0.min ≤ d0.min := le_of_not_lt hmin
          split at h
          · rename_i hpm
            split at h
            · rename_i hpd
              split at h
              · rename_i hdd
                rcases List.mem_cons.mp hpart with hp0 | hmem
                · subst hp0
                  exact ⟨p0, List.mem_cons_self _ _, hle, by rw [← hdd, ← hpd, hpm]⟩
                · obtain ⟨q, hq, h1, h2⟩ := ih ds ps h part hmem
                  exact ⟨q, List.mem_cons_of_mem _ hq, h1, h2⟩
              · cases h
            · obtain ⟨q, hq, h1, h2⟩ := ih (d0 :: ds) ps h part hpart
              exact ⟨q, List.mem_cons_of_mem _ hq, h1, h2⟩
          · split at h
            · split at h
              · obtain ⟨q, hq, h1, h2⟩ := ih (d0 :: ds) ps h part hpart
                exact ⟨q, List.mem_cons_of_mem _ hq, h1, h2⟩
              · rename_i hnd
                rcases List.mem_cons.mp hpart with hp0 | hmem
                · subst hp0
                  exact ⟨p0, List.mem_cons_self _ _, hle, le_of_not_lt hnd⟩
                · exact ih ds (p0 :: ps) h part hmem
            · split at h
              · split at h
                · obtain ⟨q, hq, h1, h2⟩ := ih (d0 :: ds) ps h part hpart
                  exact ⟨q, List.mem_cons_of_mem _ hq, h1, h2⟩
                · cases h
              · rename_i hnd
                rcases List.mem_cons.mp hpart with hp0 | hmem
                · subst hp0
                  exact ⟨p0, List.mem_cons_self _ _, hle, le_of_not_lt hnd⟩
                · exact ih ds (p0 :: ps) h part hmem

theorem range_base_walk_stable {a : Type} [LinearOrder a] [DecidableEq a] (k : Nat) :
    ∀ (j : Nat) (d p : List (lysc_range_part a)),
    d.length + p.length < k → k ≤ j →
    range_base_walk k d p = range_base_walk j d p := by
  induction k with
  | zero => intro j d p h _; omega
  | succ k ih =>
    intro j d p hb hj
    cases j with
    | zero => omega
    | succ j =>
      cases d with
      | nil => simp [range_base_walk]
      | cons d0 ds =>
        cases p with
        | nil => simp [range_base_walk]
        | cons p0 ps =>
          simp only [List.length_cons] at hb
          simp only [range_base_walk]
          split
          · rfl
          · split
            · split
              · split
                · exact ih j ds ps (by omega) (by omega)
                · rfl
              · exact ih j (d0 :: ds) ps (by simp; omega) (by omega)
            · split
              · split
                · exact ih j (d0 :: ds) ps (by simp; omega) (by omega)
                · exact ih j ds (p0 :: ps) (by simp; omega) (by omega)
              · split
                · split
                  · exact ih j (d0 :: ds) ps (by simp; omega) (by omega)
                  · rfl
                · exact ih j ds (p0 :: ps) (by simp; omega) (by omega)

theorem enumsAux_find_none (bt : LY_DATA_TYPE) (base : List LyscEnumItem) (p : LyspEnum)
    (rest : List LyspEnum) (u : Nat) (acc : List LyscEnumItem) (v pos : Int)
    (hfind : base.find? (fun b => b.name = p.name) = none) :
    enumsAux bt (some base) (p :: rest) u acc v pos = .error .LY_EVALID := by
  simp only [enumsAux, hfind]

theorem enumsAux_find_some (bt : LY_DATA_TYPE) (base : List LyscEnumItem) (p : LyspEnum)
    (rest : List LyspEnum) (u : Nat) (acc : List LyscEnumItem) (v pos : Int)
    (b : LyscEnumItem) (hfind : base.find? (fun x => x.name = p.name) = some b) :
    enumsAux bt (some base) (p :: rest) u acc v pos =
      match (if bt = .LY_TYPE_ENUM then enumValueStep (some b) p u acc v
             else bitsValueStep (some b) p u acc pos) with
      | .error e => .error e
      | .ok ec =>
        if ec.1 = b.value then
          enumsAux bt (some base) rest (u + 1)
            (if bt = .LY_TYPE_ENUM then acc ++ [⟨p.name, ec.1⟩]
             else bitsOrderedInsert acc ⟨p.name, ec.1⟩)
            (if bt = .LY_TYPE_ENUM then ec.2 else v)
            (if bt = .LY_TYPE_ENUM then pos else ec.2)
        else .error .LY_EVALID := by
  simp only [enumsAux, hfind, decide_eq_true_eq]

theorem enumsAux_enum_find_some (base : List LyscEnumItem) (p : LyspEnum)
    (rest : List LyspEnum) (u : Nat) (acc : List LyscEnumItem) (v pos : Int)
    (b : LyscEnumItem) (hfind : base.find? (fun x => x.name = p.name) = some b) :
    enumsAux .LY_TYPE_ENUM (some base) (p :: rest) u acc v pos =
      match enumValueStep (some b) p u acc v with
      | .error e => .error e
      | .ok ec =>
        if ec.1 = b.value then
          enumsAux .LY_TYPE_ENUM (some base) rest (u + 1) (acc ++ [⟨p.name, ec.1⟩]) ec.2 pos
        else .error .LY_EVALID := by
  rw [enumsAux_find_some .LY_TYPE_ENUM base p rest u acc v pos b hfind]
  rfl

theorem enumsAux_subset (bt : LY_DATA_TYPE) (base : List LyscEnumItem) :
    ∀ (inputs : List LyspEnum) (u : Nat) (acc : List LyscEnumItem) (value position : Int)
    (res : List LyscEnumItem),
    enumsAux bt (some base) inputs u acc value position = .ok res →
    ∀ pe ∈ inputs, ∃ b ∈ base, b.name = pe.name := by
  intro inputs
  induction inputs with
  | nil =>
    intro u acc v pos res h pe hpe
    simp at hpe
  | cons p rest ih =>
    intro u acc v pos res h pe hpe
    cases hfind : base.find? (fun x => x.name = p.name) with
    | none =>
      rw [enumsAux_find_none bt base p rest u acc v pos hfind] at h
      cases h
    | some b =>
      rw [enumsAux_find_some bt base p rest u acc v pos b hfind] at h
      cases hstep : (if bt = .LY_TYPE_ENUM then enumValueStep (some b) p u acc v
                     else bitsValueStep (some b) p u acc pos) with
      | error e =>
        rw [hstep] at h
        dsimp only at h
        cases h
      | ok ec =>
        rw [hstep] at h
        dsimp only at h
        split at h
        · rcases List.mem_cons.mp hpe with hp | hmem
          · subst hp
            exact ⟨b, List.mem_of_find?_eq_some hfind, by simpa using List.find?_some hfind⟩
          · exact ih (u + 1) _ _ _ res h pe hmem
        · cases h

theorem enumsAux_enum_stable (base : List LyscEnumItem) :
    ∀ (inputs : List LyspEnum) (u : Nat) (acc : List LyscEnumItem) (value position : Int)
    (res : List LyscEnumItem),
    enumsAux .LY_TYPE_ENUM (some base) inputs u acc value position = .ok res →
    ∀ j, j < acc.length → res.get? j = acc.get? j := by
  intro inputs
  induction inputs with
  | nil =>
    intro u acc v pos res h j hj
    cases h
    rfl
  | cons p rest ih =>
    intro u acc v pos res h j hj
    cases hfind : base.find? (fun x => x.name = p.name) with
    | none =>
      rw [enumsAux_find_none _ base p rest u acc v pos hfind] at h
      cases h
    | some b =>
      rw [enumsAux_enum_find_some base p rest u acc v pos b hfind] at h
      cases hstep : enumValueStep (some b) p u acc v with
      | error e =>
        rw [hstep] at h
        dsimp only at h
        cases h
      | ok ec =>
        rw [hstep] at h
        dsimp only at h
        split at h
        · have := ih (u + 1) (acc ++ [⟨p.name, ec.1⟩]) _ _ res h j (by simp; omega)
          rw [this, get?_append_lt _ _ j hj]
        · cases h

theorem enumsAux_enum_inherit (base : List LyscEnumItem) :
    ∀ (inputs : List LyspEnum) (u : Nat) (acc : List LyscEnumItem) (value position : Int)
    (res : List LyscEnumItem),
    enumsAux .LY_TYPE_ENUM (some base) inputs u acc value position = .ok res →
    ∀ (i : Nat) (pe : LyspEnum), inputs.get? i = some pe → pe.hasValue = false →
    ∃ b, base.find? (fun x => x.name = pe.name) = some b ∧
      res.get? (acc.length + i) = some ⟨pe.name, b.value⟩ := by
  intro inputs
  induction inputs with
  | nil =>
    intro u acc v pos res h i pe hpe
    simp at hpe
  | cons p rest ih =>
    intro u acc v pos res h i pe hpe hv
    cases hfind : base.find? (fun x => x.name = p.name) with
    | none =>
      rw [enumsAux_find_none _ base p rest u acc v pos hfind] at h
      cases h
    | some b =>
      rw [enumsAux_enum_find_some base p rest u acc v pos b hfind] at h
      cases i with
      | zero =>
        have hp : p = pe := by simpa using hpe
        subst hp
        have hstep : enumValueStep (some b) p u acc v =
            .ok (b.value, if u = 0 ∨ v ≤ b.value then int32_cast (b.value + 1) else v) := by
          simp [enumValueStep, hv]
        rw [hstep] at h
        dsimp only at h
        split at h
        · refine ⟨b, hfind, ?_⟩
          have hres := enumsAux_enum_stable base rest (u + 1)
            (acc ++ [⟨p.name, b.value⟩]) _ _ res h acc.length (by simp)
          rw [Nat.add_zero, hres]
          exact get?_append_self acc [] ⟨p.name, b.value⟩
        · rename_i hcond
          exact absurd rfl hcond
      | succ i =>
        have hpe' : rest.get? i = some pe := by simpa using hpe
        cases hstep : enumValueStep (some b) p u acc v with
        | error e =>
          rw [hstep] at h
          dsimp only at h
          cases h
        | ok ec =>
          rw [hstep] at h
          dsimp only at h
          split at h
          · obtain ⟨b', hb1, hb2⟩ := ih (u + 1) (acc ++ [⟨p.name, ec.1⟩]) _ _ res h i pe hpe' hv
            refine ⟨b', hb1, ?_⟩
            rw [show acc.length + (i + 1) =
              (acc ++ [(⟨p.name, ec.1⟩ : LyscEnumItem)]).length + i by simp; omega]
            exact hb2
          · cases h

/-- C1 counterexample: the claim states the feature value queries return
1 iff the enabled bit is set AND every if-feature expression evaluates
true. For the feature `f` with the enabled bit set but an if-feature
referring to the disabled feature `g` (feature array
`[g disabled, f enabled]`), `lysc_feature_value` returns 1 although the
if-feature evaluates 0, and the by-name query `lys_feature_value`
likewise returns 1: the stated biconditional is false. -/
theorem C1_counterexample :
    ¬ (lysc_feature_value (some ⟨"f", true, [⟨some (.f 0)⟩], []⟩) = 1 ↔
        ((⟨"f", true, [⟨some (.f 0)⟩], []⟩ : LyscFeature).enabled = true ∧
          ∀ iff ∈ (⟨"f", true, [⟨some (.f 0)⟩], []⟩ : LyscFeature).iffeatures,
            lysc_iffeature_value iff
              [⟨"g", false, [], []⟩, ⟨"f", true, [⟨some (.f 0)⟩], []⟩] ≠ 0)) ∧
    lys_feature_value
      (some ⟨some ⟨"m", [⟨"g", false, [], []⟩, ⟨"f", true, [⟨some (.f 0)⟩], []⟩]⟩⟩)
      (some "f") = 1 ∧
    lysc_iffeature_value ⟨some (.f 0)⟩
      [⟨"g", false, [], []⟩, ⟨"f", true, [⟨some (.f 0)⟩], []⟩] = 0 := by
  refine ⟨?_, by decide, by decide⟩
  intro hiff
  have h1 : lysc_feature_value (some ⟨"f", true, [⟨some (.f 0)⟩], []⟩) = 1 := by decide
  have h2 := (hiff.mp h1).2 ⟨some (.f 0)⟩ (by decide)
  exact h2 (by decide)

/-- C1 (amended): `lysc_feature_value` returns 1 iff the enabled bit of
the feature is set (and -1 on NULL); `lys_feature_value` returns the
enabled bit of the (first) feature found by name. Neither query
evaluates the `iffeatures` expressions; the bit-implies-expression
relation is maintained by the change operations instead of being
re-computed by the queries. -/
theorem C1_value_is_enabled_bit :
    (∀ f : LyscFeature, lysc_feature_value (some f) = 1 ↔ f.enabled = true) ∧
    lysc_feature_value none = -1 ∧
    (∀ (m : LysModule) (c : LyscModule) (name : String) (f : LyscFeature),
      m.compiled = some c →
      c.features.find? (fun g => g.name = name) = some f →
      lys_feature_value (some m) (some name) = if f.enabled then 1 else 0) := by
  refine ⟨?_, rfl, ?_⟩
  · intro f
    cases hf : f.enabled <;> simp [lysc_feature_value, hf]
  · intro m c name f hc hfind
    simp [lys_feature_value, hc, hfind]

/-- C1 witness: the amended theorem applied to a one-feature module. -/
theorem C1_witness :
    lys_feature_value (some ⟨some ⟨"m", [⟨"f", true, [], []⟩]⟩⟩) (some "f") =
      if (⟨"f", true, [], []⟩ : LyscFeature).enabled then 1 else 0 :=
  C1_value_is_enabled_bit.2.2 ⟨some ⟨"m", [⟨"f", true, [], []⟩]⟩⟩
    ⟨"m", [⟨"f", true, [], []⟩]⟩ "f" ⟨"f", true, [], []⟩ rfl (by decide)

/-- C2: when a parent (base) range exists, the two-cursor walk of
`lys_compile_type_range` accepts the derived parts only if every derived
interval is entirely contained in the union of the parent intervals
(every accepted derived interval in fact lies inside a single parent
interval); and the derived restriction `0..100` of a base `10..200`
(the uint8 typedef example) is rejected with the Validation error
`LY_EVALID` ("not equally or more limiting"). -/
theorem C2_range_base_containment :
    (∀ {a : Type} [LinearOrder a] [DecidableEq a]
      (derived base : List (lysc_range_part a)),
      lys_compile_type_range_basecheck derived (some base) = .LY_SUCCESS →
      ∀ part ∈ derived, ∀ x : a, part.min ≤ x → x ≤ part.max →
        ∃ q ∈ base, q.min ≤ x ∧ x ≤ q.max) ∧
    lys_compile_type_range_basecheck ([⟨0, 100⟩] : List (lysc_range_part Nat))
      (some [⟨10, 200⟩]) = .LY_EVALID := by
  constructor
  · intro a _ _ derived base h part hpart x hx1 hx2
    have hwalk : range_base_check derived base = true := by
      cases hcheck : range_base_check derived base with
      | true => rfl
      | false =>
        rw [lys_compile_type_range_basecheck, hcheck] at h
        cases h
    obtain ⟨q, hq, h1, h2⟩ := range_base_walk_sound _ derived base hwalk part hpart
    exact ⟨q, hq, le_trans h1 hx1, le_trans hx2 h2⟩
  · decide

/-- C2 witness: a derived `10..50` against base `0..100` passes the
check, and the containment conclusion holds at the sample point 30. -/
theorem C2_witness :
    ∃ q ∈ ([⟨0, 100⟩] : List (lysc_range_part Nat)), q.min ≤ 30 ∧ 30 ≤ q.max :=
  C2_range_base_containment.1 [⟨10, 50⟩] [⟨0, 100⟩] (by decide) ⟨10, 50⟩ (by decide)
    30 (by decide) (by decide)

/-- C4: compiling enum/bits items against a base type accepts only items
whose name exists among the base items (a derived type must not add new
items; violation is the Validation error `LY_EVALID`), and an
enumeration item given without an explicit value inherits the value of
the same-named base item; concretely, deriving `{one, two}` from base
`{one = 1, two = 2, three = 3}` yields values 1 and 2, and deriving
`{four}` fails with `LY_EVALID`. -/
theorem C4_enum_subset_inherit :
    (∀ (bt : LY_DATA_TYPE) (base : List LyscEnumItem) (inputs : List LyspEnum)
      (res : List LyscEnumItem),
      lys_compile_type_enums inputs bt (some base) = .ok res →
      ∀ pe ∈ inputs, ∃ b ∈ base, b.name = pe.name) ∧
    (∀ (base : List LyscEnumItem) (inputs : List LyspEnum) (res : List LyscEnumItem)
      (i : Nat) (pe : LyspEnum),
      lys_compile_type_enums inputs .LY_TYPE_ENUM (some base) = .ok res →
      inputs.get? i = some pe → pe.hasValue = false →
      ∃ b, base.find? (fun x => x.name = pe.name) = some b ∧
        res.get? i = some ⟨pe.name, b.value⟩) ∧
    lys_compile_type_enums [⟨"one", false, 0⟩, ⟨"two", false, 0⟩] .LY_TYPE_ENUM
      (some demo_base) = .ok [⟨"one", 1⟩, ⟨"two", 2⟩] ∧
    lys_compile_type_enums [⟨"four", false, 0⟩] .LY_TYPE_ENUM (some demo_base) =
      .error .LY_EVALID := by
  refine ⟨?_, ?_, by decide, by decide⟩
  · intro bt base inputs res h pe hpe
    exact enumsAux_subset bt base inputs 0 [] 0 0 res h pe hpe
  · intro base inputs res i pe h hg hv
    have := enumsAux_enum_inherit base inputs 0 [] 0 0 res h i pe hg hv
    simpa using this

/-- C4 witness: the subset property applied to the one-item derivation
`{one}` of the demonstration base. -/
theorem C4_witness :
    ∃ b ∈ demo_base, b.name = (⟨"one", false, 0⟩ : LyspEnum).name :=
  C4_enum_subset_inherit.1 .LY_TYPE_ENUM demo_base [⟨"one", false, 0⟩]
    [⟨"one", 1⟩] (by decide) ⟨"one", false, 0⟩ (by decide)

/-- C5: the dependant-features propagation of `lys_feature_change`.
First conjunct (the clearing rule): a feature `d` in the dependant list
being walked that is enabled and one of whose if-features now evaluates
false gets its enabled bit cleared and is appended to the changed work
set. Second conjunct (no automatic re-enable): propagation never sets
an enabled bit — every feature enabled after propagation was already
enabled, with identical state, before it. Remaining conjuncts: the
spec scenario on `demo_m0` — after enabling `a`, `f`, `g`, enabling `b`
auto-disables `f` and, transitively, `g`; subsequently enabling `c`
(which makes the if-feature of `f` true again) leaves `f` and `g`
disabled. -/
theorem C5_depfeature_propagation :
    (∀ (fs : List LyscFeature) (d : Nat) (rest : List Nat) (f : LyscFeature),
      fs.get? d = some f → f.enabled = true →
      f.iffeatures.any (fun iff => lysc_iffeature_value iff fs = 0) = true →
      (propStep fs (d :: rest)).1.get? d = some { f with enabled := false } ∧
        d ∈ (propStep fs (d :: rest)).2) ∧
    (∀ (fs : List LyscFeature) (work : List Nat) (i : Nat) (f' : LyscFeature),
      (propagate fs work).get? i = some f' → f'.enabled = true →
      fs.get? i = some f') ∧
    demo_s3.1 = .LY_SUCCESS ∧
    demo_s3.2.features.map (fun f => f.enabled) = [true, false, false, true, true] ∧
    demo_s4.1 = .LY_SUCCESS ∧
    demo_s4.2.features.map (fun f => f.enabled) = [true, true, false, false, false] ∧
    demo_s5.1 = .LY_SUCCESS ∧
    demo_s5.2.features.map (fun f => f.enabled) = [true, true, true, false, false] :=
  ⟨propStep_head, propagate_no_enable, rfl, rfl, rfl, rfl, rfl, rfl⟩

/-- C5 witness: the clearing rule applied to a two-feature array where
the walked dependant `x` is enabled and its if-feature (referring to the
disabled feature `y`) evaluates false. -/
theorem C5_witness :
    (propStep [⟨"x", true, [⟨some (.f 1)⟩], []⟩, ⟨"y", false, [], []⟩] [0]).1.get? 0 =
      some ⟨"x", false, [⟨some (.f 1)⟩], []⟩ ∧
    0 ∈ (propStep [⟨"x", true, [⟨some (.f 1)⟩], []⟩, ⟨"y", false, [], []⟩] [0]).2 :=
  C5_depfeature_propagation.1 _ 0 [] ⟨"x", true, [⟨some (.f 1)⟩], []⟩ rfl rfl (by decide)

/-- C6: the escape/wrap stage of the pattern compiler — every literal
dollar escapes to backslash-dollar and every literal caret to
backslash-caret (characterised per input character), and any pattern not
already ending in `.*` is wrapped as `(...)$`; the input `[A-Z]+`
produces exactly `([A-Z]+)$`. -/
theorem C6_pattern_escape_wrap :
    (∀ p : String, pattern_ends_dotstar p.data = false →
      lys_compile_type_pattern_perl p =
        "(" ++ String.mk (lys_compile_type_pattern_escape p.data) ++ ")$") ∧
    (∀ p : String, pattern_ends_dotstar p.data = true →
      lys_compile_type_pattern_perl p =
        String.mk (lys_compile_type_pattern_escape p.data)) ∧
    lys_compile_type_pattern_escape [] = [] ∧
    (∀ cs : List Char, lys_compile_type_pattern_escape ('$' :: cs) =
      '\\' :: '$' :: lys_compile_type_pattern_escape cs) ∧
    (∀ cs : List Char, lys_compile_type_pattern_escape ('^' :: cs) =
      '\\' :: '^' :: lys_compile_type_pattern_escape cs) ∧
    (∀ (c : Char) (cs : List Char), c ≠ '$' → c ≠ '^' →
      lys_compile_type_pattern_escape (c :: cs) = c :: lys_compile_type_pattern_escape cs) ∧
    lys_compile_type_pattern_perl "[A-Z]+" = "([A-Z]+)$" := by
  refine ⟨?_, ?_, rfl, ?_, ?_, ?_, by decide⟩
  · intro p hp
    simp [lys_compile_type_pattern_perl, hp]
  · intro p hp
    simp [lys_compile_type_pattern_perl, hp]
  · intro cs
    rfl
  · intro cs
    rfl
  · intro c cs h1 h2
    simp [lys_compile_type_pattern_escape, h1, h2]

/-- C6 witness: the wrap equation applied to the pattern `ab$`. -/
theorem C6_witness :
    lys_compile_type_pattern_perl "ab$" =
      "(" ++ String.mk (lys_compile_type_pattern_escape "ab$".data) ++ ")$" :=
  C6_pattern_escape_wrap.1 "ab$" (by decide)

/-- C3: the enable-all operation is transactional — whenever
`lys_feature_change(mod, "*", 1)` returns `LY_EDENIED` (some features
still could not be enabled after a pass that enabled nothing new), every
feature flip made during the call has been rolled back, so the returned
module state equals the initial one bit for bit. -/
theorem C3_enable_all_rollback :
    ∀ (mod m' : LyscModule),
    lys_feature_change mod "*" true = (.LY_EDENIED, m') → m' = mod := by
  intro mod m' h
  simp only [lys_feature_change] at h
  split at h
  · cases h
  · rw [if_pos ⟨trivial, trivial⟩] at h
    split at h
    · rename_i fsR hall
      have hInv : FlipInv mod.features mod.features [] :=
        ⟨rfl, List.nodup_nil, fun i _ => rfl, fun i hi => absurd hi (List.not_mem_nil i)⟩
      have hfsR : fsR = mod.features :=
        enableAllFuel_denied "*" mod.features (mod.features.length + 1)
          mod.features [] 0 fsR hInv hall
      cases h
      rw [hfsR]
    · cases h

/-- C3 witness: on the module whose feature `f` has the unsatisfiable
if-feature `g and not g`, enable-all returns `LY_EDENIED` and the module
is returned exactly as it was. -/
theorem C3_witness :
    (lys_feature_change demo_all "*" true).1 = .LY_EDENIED ∧
    (lys_feature_change demo_all "*" true).2 = demo_all :=
  ⟨by decide, C3_enable_all_rollback demo_all
    (lys_feature_change demo_all "*" true).2 (by decide)⟩

/-- C7: enabling a single named feature whose if-feature expression
currently evaluates false fails with `LY_EDENIED` and leaves the module
(in particular the enabled bit of the feature) unchanged. The feature is
the first one of the array matching the name, it is currently disabled,
and one of its if-features evaluates 0. -/
theorem C7_enable_denied :
    ∀ (mod : LyscModule) (name : String) (f : LyscFeature),
    name ≠ "*" →
    mod.features.find? (fun g => g.name = name) = some f →
    f.enabled = false →
    f.iffeatures.any (fun iff => lysc_iffeature_value iff mod.features = 0) = true →
    lys_feature_change mod name true = (.LY_EDENIED, mod) := by
  intro mod name f hn hfind hen hiff
  have hfs : ¬ mod.features = [] := by
    intro h0
    rw [h0] at hfind
    cases hfind
  have hpass := (runPassAux_single_found name true mod.features.length 0 mod.features
    [] 0 f (by simpa [List.drop_zero] using hfind) (by omega)).2
    (by rw [hen]; exact Bool.false_ne_true) rfl hiff
  have hall : decide (name = "*") = false := decide_eq_false hn
  simp only [lys_feature_change, if_neg hfs,
    if_neg (fun hc => hn hc.1 : ¬(name = "*" ∧ True)), hall, runPass, hpass]

/-- C7 witness: enabling `f` (if-feature `g`, disabled) in a concrete
two-feature module is denied and the module is unchanged. -/
theorem C7_witness :
    lys_feature_change ⟨"m", [⟨"g", false, [], []⟩, ⟨"f", false, [⟨some (.f 0)⟩], []⟩]⟩
        "f" true =
      (.LY_EDENIED, ⟨"m", [⟨"g", false, [], []⟩, ⟨"f", false, [⟨some (.f 0)⟩], []⟩]⟩) :=
  C7_enable_denied ⟨"m", [⟨"g", false, [], []⟩, ⟨"f", false, [⟨some (.f 0)⟩], []⟩]⟩
    "f" ⟨"f", false, [⟨some (.f 0)⟩], []⟩ (by decide) (by decide) rfl (by decide)

/-- C8: enabling an already-enabled named feature — and symmetrically
disabling an already-disabled one — returns `LY_SUCCESS` with no side
effects: the module is returned unchanged, so no enabled bit changes and
no dependant-feature propagation takes place. The same holds through the
`lys_feature_enable` / `lys_feature_disable` wrappers. -/
theorem C8_already_set_noop :
    ∀ (mod : LyscModule) (name : String) (f : LyscFeature) (value : Bool),
    name ≠ "*" →
    mod.features.find? (fun g => g.name = name) = some f →
    f.enabled = value →
    lys_feature_change mod name value = (.LY_SUCCESS, mod) ∧
    (∀ m : LysModule, m.compiled = some mod →
      (value = true → lys_feature_enable (some m) (some name) = (.LY_SUCCESS, some m)) ∧
      (value = false → lys_feature_disable (some m) (some name) = (.LY_SUCCESS, some m))) := by
  intro mod name f value hn hfind hen
  have hfs : ¬ mod.features = [] := by
    intro h0
    rw [h0] at hfind
    cases hfind
  have hpass := (runPassAux_single_found name value mod.features.length 0 mod.features
    [] 0 f (by simpa [List.drop_zero] using hfind) (by omega)).1 hen
  have hall : decide (name = "*") = false := decide_eq_false hn
  have hmain : lys_feature_change mod name value = (.LY_SUCCESS, mod) := by
    simp only [lys_feature_change, if_neg hfs,
      if_neg (fun hc => hn hc.1 : ¬(name = "*" ∧ value = true)), hall, runPass, hpass]
  refine ⟨hmain, ?_⟩
  intro m hc
  constructor
  · intro hv
    subst hv
    simp only [lys_feature_enable, hc, hmain]
    cases m
    simp only at hc
    rw [hc]
  · intro hv
    subst hv
    simp only [lys_feature_disable, hc, hmain]
    cases m
    simp only at hc
    rw [hc]

/-- C8 witness: enabling the already-enabled feature `f` succeeds and
returns the module unchanged. -/
theorem C8_witness :
    lys_feature_change ⟨"m", [⟨"f", true, [], []⟩]⟩ "f" true =
      (.LY_SUCCESS, ⟨"m", [⟨"f", true, [], []⟩]⟩) :=
  (C8_already_set_noop ⟨"m", [⟨"f", true, [], []⟩]⟩ "f" ⟨"f", true, [], []⟩ true
    (by decide) (by decide) rfl).1

/-- C9: `lys_feature_value` returns the sentinel -1 (distinct from the
feature values 0 and 1) exactly when no feature of the given name exists
among the compiled features of the module or one of `module`,
`module->compiled`, `feature` is NULL; it reports this through the
return value, not an error code, and returns only -1, 0 or 1. -/
theorem C9_value_sentinel :
    ∀ (module : Option LysModule) (feature : Option String),
    (lys_feature_value module feature = -1 ↔
      (module = none ∨ (∃ m, module = some m ∧ m.compiled = none) ∨ feature = none ∨
        (∃ (m : LysModule) (c : LyscModule) (fname : String),
          module = some m ∧ m.compiled = some c ∧ feature = some fname ∧
          c.features.find? (fun f => f.name = fname) = none))) ∧
    (lys_feature_value module feature = -1 ∨ lys_feature_value module feature = 0 ∨
      lys_feature_value module feature = 1) := by
  intro module feature
  cases module with
  | none =>
    exact ⟨⟨fun _ => Or.inl rfl, fun _ => rfl⟩, Or.inl rfl⟩
  | some m =>
    cases hc : m.compiled with
    | none =>
      have hval : lys_feature_value (some m) feature = -1 := by
        simp [lys_feature_value, hc]
      exact ⟨⟨fun _ => Or.inr (Or.inl ⟨m, rfl, hc⟩), fun _ => hval⟩, Or.inl hval⟩
    | some c =>
      cases feature with
      | none =>
        have hval : lys_feature_value (some m) none = -1 := by
          simp [lys_feature_value, hc]
        exact ⟨⟨fun _ => Or.inr (Or.inr (Or.inl rfl)), fun _ => hval⟩, Or.inl hval⟩
      | some fname =>
        cases hfind : c.features.find? (fun f => f.name = fname) with
        | none =>
          have hval : lys_feature_value (some m) (some fname) = -1 := by
            simp [lys_feature_value, hc, hfind]
          exact ⟨⟨fun _ => Or.inr (Or.inr (Or.inr ⟨m, c, fname, rfl, hc, rfl, hfind⟩)),
            fun _ => hval⟩, Or.inl hval⟩
        | some f =>
          have hval : lys_feature_value (some m) (some fname) =
              if f.enabled then 1 else 0 := by
            simp [lys_feature_value, hc, hfind]
          constructor
          · rw [hval]
            constructor
            · intro h1
              cases he : f.enabled <;> rw [he] at h1 <;> simp at h1
            · intro hr
              rcases hr with h | ⟨m', hm', hc'⟩ | h | ⟨m', c', fn', hm', hc', hf', hfind'⟩
              · cases h
              · cases hm'
                rw [hc] at hc'
                cases hc'
              · cases h
              · cases hm'
                rw [hc] at hc'
                cases hc'
                cases hf'
                rw [hfind] at hfind'
                cases hfind'
          · rw [hval]
            cases f.enabled <;> simp

/-- C10: on a module whose compiled form has no features at all,
`lys_feature_change` returns `LY_EINVAL` for every feature name —
including the wildcard `*` — and value, leaving the module unchanged;
consequently `lys_feature_enable` and `lys_feature_disable` also return
`LY_EINVAL`. -/
theorem C10_no_features_einval :
    ∀ (mod : LyscModule) (name : String) (value : Bool),
    mod.features = [] →
    lys_feature_change mod name value = (.LY_EINVAL, mod) ∧
    (∀ m : LysModule, m.compiled = some mod →
      lys_feature_enable (some m) (some name) = (.LY_EINVAL, some m) ∧
      lys_feature_disable (some m) (some name) = (.LY_EINVAL, some m)) := by
  intro mod name value h0
  have hmain : ∀ v : Bool, lys_feature_change mod name v = (.LY_EINVAL, mod) := by
    intro v
    simp [lys_feature_change, h0]
  refine ⟨hmain value, ?_⟩
  intro m hc
  constructor
  · simp only [lys_feature_enable, hc, hmain]
    cases m
    simp only at hc
    rw [hc]
  · simp only [lys_feature_disable, hc, hmain]
    cases m
    simp only at hc
    rw [hc]

/-- C10 witness: enable-all on a featureless module is `LY_EINVAL`, not
a no-op success. -/
theorem C10_witness :
    lys_feature_change ⟨"empty", []⟩ "*" true = (.LY_EINVAL, ⟨"empty", []⟩) :=
  (C10_no_features_einval ⟨"empty", []⟩ "*" true rfl).1
